import Mathlib

/-!
Verification of the webis-de/unmasking framework against its specification.

Each Python function relevant to the checked claims is shallowly embedded as
a Lean definition translated from the source:

* `job/configuration.py` — `ZipExpander.expand` (Python `zip(*vs)`) and
  `ProductExpander.expand` (Python `itertools.product(*vs)`);
* `unmasking/interfaces.py` — `UnmaskingStrategy.run` (the per-round loop)
  and `UnmaskingStrategy._do_monotonize`;
* `unmasking/strategies.py` — `FeatureRemoval.transform`;
* `output/aggregators.py` — `CurveAverageAggregator.__init__`, `add_curve`,
  `reset`;
* `event/dispatch.py` — `EventBroadcaster.subscribe`, `unsubscribe`,
  `publish` (main-thread path) and
  `_MultiProcessEventContextType.__await_queue`.

Floats are modelled as rationals, numpy arrays as lists, Python dicts as
association lists with first-match lookup.
-/

namespace Unmasking

/-! ### job/configuration.py: configuration expanders -/

/--
`ZipExpander.expand(configuration_vectors)` returns `zip(*configuration_vectors)`.
Python `zip` with no arguments yields nothing; otherwise it repeatedly emits
the tuple of heads until one of the vectors is exhausted.
-/
def zipExpand {α : Type} (vs : List (List α)) : List (List α) :=
  if h : vs.isEmpty = false ∧ vs.all (fun v => !v.isEmpty) = true then
    (vs.filterMap List.head?) :: zipExpand (vs.map List.tail)
  else
    []
termination_by (vs.map List.length).sum
decreasing_by
  rcases vs with _ | ⟨v, rest⟩
  · exact absurd h.1 (by simp)
  · have hv : v.isEmpty = false := by
      have hall := h.2
      simp only [List.all_cons, Bool.and_eq_true, Bool.not_eq_true'] at hall
      exact hall.1
    have h1 : (List.tail v).length < v.length := by
      rcases v with _ | ⟨a, t⟩
      · exact absurd hv (by simp)
      · simp [List.tail]
    have h2 : ((rest.map List.tail).map List.length).sum ≤
        (rest.map List.length).sum := by
      rw [List.map_map]
      apply List.sum_le_sum
      intro i _
      simp only [Function.comp_apply, List.length_tail]
      omega
    simp only [List.map_cons, List.sum_cons]
    omega

/--
`ProductExpander.expand(configuration_vectors)` returns
`itertools.product(*configuration_vectors)`: the Cartesian product in
lexicographic order with the first vector varying slowest.  `product()` of
no vectors yields exactly one empty tuple.
-/
def productExpand {α : Type} : List (List α) → List (List α)
  | [] => [[]]
  | v :: rest => v.flatMap (fun x => (productExpand rest).map (x :: ·))

/-! ### unmasking/interfaces.py: `UnmaskingStrategy._do_monotonize` -/

/--
First half of `_do_monotonize`: `values_l[i] = min(prev_value, values[i])`
with `prev_value` starting at `1.0` and updated to `values_l[i]`.
-/
def monotonizeLeftAux (prev : ℚ) : List ℚ → List ℚ
  | [] => []
  | v :: t => min prev v :: monotonizeLeftAux (min prev v) t

/--
Second half of `_do_monotonize`: `values_r[i] = max(prev_value, values[i])`
iterating from the right with `prev_value` starting at `0.0`.  Implemented
as the left-style scan on the reversed list.
-/
def monotonizeRightAux (prev : ℚ) : List ℚ → List ℚ
  | [] => []
  | v :: t => max prev v :: monotonizeRightAux (max prev v) t

/-- `values_l` of `_do_monotonize`. -/
def monotonizeLeft (values : List ℚ) : List ℚ :=
  monotonizeLeftAux 1 values

/-- `values_r` of `_do_monotonize`. -/
def monotonizeRight (values : List ℚ) : List ℚ :=
  (monotonizeRightAux 0 values.reverse).reverse

/-- `numpy.sum(numpy.square(a - b))` for two curves of equal length. -/
def ssd (a b : List ℚ) : ℚ :=
  ((a.zip b).map (fun p => (p.1 - p.2) ^ 2)).sum

/--
`UnmaskingStrategy._do_monotonize(values)`: return `values_l` when
`delta_l <= delta_r`, else `values_r`.
-/
def do_monotonize (values : List ℚ) : List ℚ :=
  if ssd values (monotonizeLeft values) ≤ ssd values (monotonizeRight values) then
    monotonizeLeft values
  else
    monotonizeRight values

/-! ### event/dispatch.py: `EventBroadcaster`

Sender types and handlers are abstracted as natural numbers.  A sender
filter (`senders: Set[type]`, possibly `None`) is an `Option (Finset ℕ)`;
the subscriber table (`EventBroadcaster.__subscribers`, a Python dict of
lists) is an association list with first-match lookup, new keys appended
at the end as dict insertion does.
-/

/-- A subscriber entry `(senders, handler)` as appended by `subscribe`. -/
abbrev Subscriber : Type := Option (Finset ℕ) × ℕ

/-- The `EventBroadcaster.__subscribers` dict. -/
abbrev SubscriberTable : Type := List (String × List Subscriber)

/--
`EventBroadcaster.subscribe(event_name, handler, senders)`: create an empty
list for a fresh `event_name` key, then append `(senders, handler)` to the
list stored under `event_name`.
-/
def subscribe (t : SubscriberTable) (event_name : String) (handler : ℕ)
    (senders : Option (Finset ℕ)) : SubscriberTable :=
  match t.lookup event_name with
  | none => t ++ [(event_name, [(senders, handler)])]
  | some _ =>
      t.map (fun p =>
        if p.1 = event_name then (p.1, p.2 ++ [(senders, handler)]) else p)

/--
`EventBroadcaster.unsubscribe(event_name, handler, senders)`: return with the
table untouched when `event_name` is not a key; otherwise rebuild the list of
every key `e`, keeping only the entries different from `(senders, handler)`.
-/
def unsubscribe (t : SubscriberTable) (event_name : String) (handler : ℕ)
    (senders : Option (Finset ℕ)) : SubscriberTable :=
  match t.lookup event_name with
  | none => t
  | some _ =>
      t.map (fun p =>
        (p.1, p.2.filter (fun i => decide (i ≠ (senders, handler)))))

/-- The test `h[0] is None or sender in h[0]` guarding handler invocation. -/
def matchesSender (filt : Option (Finset ℕ)) (sender : ℕ) : Bool :=
  match filt with
  | none => true
  | some s => decide (sender ∈ s)

/--
The loop `for h in cls.__subscribers[event_name]: if h[0] is None or
sender in h[0]: await h[1].handle(...)` of `EventBroadcaster.publish`,
returned as the ordered list of invoked handlers.
-/
def deliverList (subs : List Subscriber) (sender : ℕ) : List ℕ :=
  match subs with
  | [] => []
  | (filt, hd) :: rest =>
      if matchesSender filt sender then hd :: deliverList rest sender
      else deliverList rest sender

/--
`EventBroadcaster.publish(event_name, event, sender)` on the main process
and main thread: no delivery when `event_name` is not a key, otherwise the
subscriber loop above.  The result is the ordered list of handlers whose
`handle` coroutine is awaited.
-/
def publish (t : SubscriberTable) (event_name : String) (sender : ℕ) : List ℕ :=
  match t.lookup event_name with
  | none => []
  | some subs => deliverList subs sender

/-! ### event/dispatch.py: `_MultiProcessEventContextType.__await_queue`

The consumer coroutine repeatedly blocks on `queue.get`, calls `task_done`,
returns on the `None` sentinel and otherwise re-invokes
`EventBroadcaster.publish` on the dequeued triple.  `publish` is awaited
with no surrounding `try`/`except`, so an exception raised by a handler
propagates out of the coroutine and ends the loop.  The model consumes a
finite list of queue items (`none` = sentinel); `raises e = true` means
re-publishing event `e` raises a handler exception.
-/

/-- Outcome of one run of the consumer loop. -/
structure ConsumerRun (E : Type) where
  /-- events re-published without a handler exception, in consumption order -/
  dispatched : List E
  /-- the event whose re-publication raised, if any -/
  crash : Option E
  /-- queue items never consumed by this loop -/
  leftover : List (Option E)
deriving DecidableEq

/-- The consumer loop of `_MultiProcessEventContextType.__await_queue`. -/
def awaitQueue {E : Type} (raises : E → Bool) :
    List (Option E) → ConsumerRun E
  | [] => ⟨[], none, []⟩
  | none :: rest => ⟨[], none, rest⟩
  | some e :: rest =>
      if raises e then ⟨[], some e, rest⟩
      else
        let r := awaitQueue raises rest
        ⟨e :: r.dispatched, r.crash, r.leftover⟩

/-! ### output/aggregators.py: `CurveAverageAggregator`

Identifiers and classes reach the aggregator already stringified (the code
applies `str(...)`); curve values are rationals.  The `_curves` and
`_curve_files` dicts are association lists, metadata is an association
list of string pairs, `_classes` a list of observed class strings.
-/

/-- One `(str(identifier), str(cls), values)` tuple stored in a bucket. -/
abbrev CurveEntry : Type := String × String × List ℚ

/-- The state of a `CurveAverageAggregator` instance. -/
structure CurveAgg where
  /-- `self._curves` -/
  curves : List (String × List CurveEntry)
  /-- `self._curve_files` -/
  curveFiles : List (String × List String)
  /-- `self._initial_meta_data` -/
  initialMetaData : List (String × String)
  /-- `self._meta_data` -/
  metaData : List (String × String)
  /-- `self._classes` -/
  observedClasses : List String
  /-- `self._aggregate_by_class` -/
  aggregateByClass : Bool
deriving DecidableEq

/--
`CurveAverageAggregator.__init__(meta_data, aggregate_by_class)`: empty
curve and file dicts, both metadata fields set to the given dict, empty
class set, and the given aggregation mode.
-/
def curveAggInit (meta : List (String × String)) (aggByCls : Bool) : CurveAgg :=
  ⟨[], [], meta, meta, [], aggByCls⟩

/--
`CurveAverageAggregator.reset()` executes
`self.__init__(self._initial_meta_data)`; the second `__init__` parameter
`aggregate_by_class` is not passed and falls back to its default `False`.
-/
def curveAggReset (a : CurveAgg) : CurveAgg :=
  curveAggInit a.initialMetaData false

/-- Replace the value stored under key `k` of an association list. -/
def updateKey {β : Type} (cs : List (String × β)) (k : String) (v : β) :
    List (String × β) :=
  cs.map (fun p => if p.1 = k then (p.1, v) else p)

/--
`CurveAverageAggregator.add_curve(identifier, cls, values)`: select the
bucket key (`str(cls)` in by-class mode, else `str(identifier)`); create an
empty bucket for a fresh key, otherwise `assert str(cls) ==
self._curves[agg][0][1]`; then append `(str(identifier), str(cls), values)`
to the bucket.  `none` models the call raising (`AssertionError` on a class
mismatch, `IndexError` on the unreachable empty-bucket state).
-/
def addCurve (a : CurveAgg) (identifier cls : String) (values : List ℚ) :
    Option CurveAgg :=
  match a.curves.lookup (if a.aggregateByClass then cls else identifier) with
  | none =>
      some { a with curves := a.curves ++
        [((if a.aggregateByClass then cls else identifier),
          [(identifier, cls, values)])] }
  | some bucket =>
      match bucket.head? with
      | none => none
      | some first =>
          if cls = first.2.1 then
            some { a with
              curves := updateKey a.curves
                (if a.aggregateByClass then cls else identifier)
                (bucket ++ [(identifier, cls, values)]) }
          else
            none

/-- All entries of one bucket carry the same class string. -/
def bucketUniform (bucket : List CurveEntry) : Bool :=
  match bucket.head? with
  | none => true
  | some first => bucket.all (fun e => e.2.1 == first.2.1)

/-- Every bucket of the aggregator is class-uniform. -/
def uniformOK (a : CurveAgg) : Bool :=
  a.curves.all (fun p => bucketUniform p.2)

/-- No bucket of the aggregator is empty (true of every reachable state). -/
def bucketsNonempty (a : CurveAgg) : Bool :=
  a.curves.all (fun p => !p.2.isEmpty)

/--
The rejection condition as the specification words it: the selected bucket
already contains entries and the class stored with its first entry differs
from the new entry's class.
-/
def specAddCurveRejects (a : CurveAgg) (identifier cls : String) : Bool :=
  match a.curves.lookup (if a.aggregateByClass then cls else identifier) with
  | none => false
  | some bucket =>
      match bucket.head? with
      | none => false
      | some first => decide (cls ≠ first.2.1)

/-! ### unmasking/interfaces.py: the round loop of `UnmaskingStrategy.run`

The loop `for i in range(self._iterations)` is translated as a fold over
`List.range iterations` on a loop state; `return`, `break` and `continue`
become state transitions.  Fitting and cross-validation are abstracted by
an oracle giving, for each round index, either a `ValueError` (degenerate
data) or the list of fold accuracies together with whether
`self.transform` empties the feature matrix; the cooperative-cancellation
flag is a per-round boolean.
-/

/-- Outcome of `clf.fit` / `cross_val_score` / `transform` in one round. -/
inductive RoundResult where
  /-- the round raises `ValueError` -/
  | err : RoundResult
  /-- fold accuracies returned by `cross_val_score`, and whether the
  transformed feature matrix comes back empty -/
  | ok (foldScores : List ℚ) (emptyAfterTransform : Bool) : RoundResult
deriving DecidableEq

/-- `scores.mean()` of a numpy vector, as exact rational arithmetic. -/
def listMean (l : List ℚ) : ℚ :=
  l.sum / l.length

/-- `score = max(0.0, (scores.mean() - .5) * 2)`. -/
def roundScore (foldScores : List ℚ) : ℚ :=
  max 0 ((listMean foldScores - 1/2) * 2)

/-- Loop state of `UnmaskingStrategy.run`: still iterating, or left the
loop via `return` (cancellation) or `break` (empty feature matrix). -/
inductive RunState where
  | going (values : List ℚ) : RunState
  | ended (values : List ℚ) : RunState
deriving DecidableEq

/-- One iteration of the round loop of `UnmaskingStrategy.run`:
check the terminate flag (`return`), run fit/cross-validation, append the
score, transform the matrix and `break` when it comes back empty unless in
the last round; `except ValueError: continue`. -/
def runRound (oracle : ℕ → RoundResult) (terminate : ℕ → Bool)
    (iterations : ℕ) (st : RunState) (i : ℕ) : RunState :=
  match st with
  | .ended vs => .ended vs
  | .going values =>
      if terminate i then .ended values
      else
        match oracle i with
        | .err => .going values
        | .ok foldScores emptyX =>
            let values2 := values ++ [roundScore foldScores]
            if decide (i < iterations - 1) && emptyX then .ended values2
            else .going values2

/-- The list `values` accumulated by the round loop of
`UnmaskingStrategy.run`. -/
def runValues (oracle : ℕ → RoundResult) (terminate : ℕ → Bool)
    (iterations : ℕ) : List ℚ :=
  match (List.range iterations).foldl (runRound oracle terminate iterations)
      (.going []) with
  | .going vs => vs
  | .ended vs => vs

/-! ### unmasking/strategies.py: `FeatureRemoval.transform`

The feature matrix is a list of rows; `numpy.delete(data, index, 1)`
removes entry `index` from every row, `numpy.delete(coef, index)` removes
it from the coefficient vector.  `numpy.argmax` / `numpy.argmin` return
the position of the first occurrence of the largest / smallest entry.
`data.shape[1]` is the common row length and `data.size` the total number
of entries.
-/

/-- `numpy.argmax`: index of the first occurrence of the maximum. -/
def argmax (l : List ℚ) : ℕ :=
  l.indexOf (l.max?.getD 0)

/-- `numpy.argmin`: index of the first occurrence of the minimum. -/
def argmin (l : List ℚ) : ℕ :=
  l.indexOf (l.min?.getD 0)

/-- `data.shape[1]` of a rectangular row-list matrix. -/
def numCols (data : List (List ℚ)) : ℕ :=
  (data.headD []).length

/-- Loop state of `FeatureRemoval.transform`: still eliminating, or left
the loop via `return data` (no columns) or `break` (matrix emptied). -/
inductive FRState where
  | going (data : List (List ℚ)) (coef : List ℚ) : FRState
  | ended (data : List (List ℚ)) : FRState
deriving DecidableEq

/-- One iteration of `for i in range(0, self._num_eliminate)` in
`FeatureRemoval.transform`: `return data` when `data.shape[1] == 0`; pick
`numpy.argmax(coef)` while `i < self._num_eliminate / 2` (true division,
so while `2 * i < k`) and `numpy.argmin(coef)` afterwards; delete that
position from `coef` and that column from `data`; `break` when
`data.size == 0`. -/
def frStep (k : ℕ) (st : FRState) (i : ℕ) : FRState :=
  match st with
  | .ended d => .ended d
  | .going data coef =>
      if numCols data = 0 then .ended data
      else
        let idx := if 2 * i < k then argmax coef else argmin coef
        let data2 := data.map (fun r => r.eraseIdx idx)
        let coef2 := coef.eraseIdx idx
        if (data2.map List.length).sum = 0 then .ended data2
        else .going data2 coef2

/-- `FeatureRemoval.transform(data, coef)` with `num_eliminate = k`. -/
def frTransform (k : ℕ) (data : List (List ℚ)) (coef : List ℚ) :
    List (List ℚ) :=
  match (List.range k).foldl (frStep k) (.going data coef) with
  | .going d _ => d
  | .ended d => d

/--
The elimination step in the specification's words: delete the column of
the first-occurrence largest (positive phase) or smallest (negative
phase) trained coefficient.
-/
def elimOnce (selectMax : Bool) (dc : List (List ℚ) × List ℚ) :
    List (List ℚ) × List ℚ :=
  let idx := if selectMax then argmax dc.2 else argmin dc.2
  (dc.1.map (fun r => r.eraseIdx idx), dc.2.eraseIdx idx)

/--
One elimination of the specification's description: do nothing once no
column is left, otherwise remove the column selected by first-occurrence
argmax during the first `k - k/2` eliminations (`2j < k`) and by
first-occurrence argmin afterwards.
-/
def specFRStep (k : ℕ) (dc : List (List ℚ) × List ℚ) (j : ℕ) :
    List (List ℚ) × List ℚ :=
  if numCols dc.1 = 0 then dc else elimOnce (decide (2 * j < k)) dc

/--
`FeatureRemoval.transform` as the specification describes it: perform `k`
eliminations, the first `k/2` (of the round half using the largest
coefficients) by first-occurrence argmax and the rest by first-occurrence
argmin, doing nothing once no column is left.
-/
def specFeatureRemoval (k : ℕ) (data : List (List ℚ)) (coef : List ℚ) :
    List (List ℚ) :=
  ((List.range k).foldl (specFRStep k) (data, coef)).1

/-! ## Theorems -/

/-- C8 counterexample: an aggregator constructed in by-class mode is no
longer in by-class mode after `reset()`, because `reset` re-runs
`__init__` without passing `aggregate_by_class`. -/
theorem c8_reset_mode_counterexample :
    (curveAggReset (curveAggInit [] true)).aggregateByClass = false ∧
    ¬ (curveAggReset (curveAggInit [] true)).aggregateByClass = true := by
  constructor
  · rfl
  · simp [curveAggReset, curveAggInit]

/-- C8 (amended): `reset()` clears the accumulated curves, files and
observed classes and restores the initial metadata, but it also reverts
the aggregation mode to the constructor default `False` (aggregate by
identifier) instead of keeping the construction-time mode. -/
theorem c8_reset_state (a : CurveAgg) :
    curveAggReset a = curveAggInit a.initialMetaData false ∧
    (curveAggReset a).curves = [] ∧
    (curveAggReset a).curveFiles = [] ∧
    (curveAggReset a).observedClasses = [] ∧
    (curveAggReset a).metaData = a.initialMetaData ∧
    (curveAggReset a).initialMetaData = a.initialMetaData ∧
    (curveAggReset a).aggregateByClass = false :=
  ⟨rfl, rfl, rfl, rfl, rfl, rfl, rfl⟩

/-- C2 counterexample: with two worker events queued and the first one
raising in its handler, the consumer loop crashes on the first event and
never processes the second one: the exception is not caught inside the
loop and the loop does not continue. -/
theorem c2_consumer_crash_counterexample :
    (awaitQueue (fun e => e == 0) [some 0, some 1, none]).crash = some 0 ∧
    (awaitQueue (fun e => e == 0) [some 0, some 1, none]).dispatched = [] ∧
    (awaitQueue (fun e => e == 0) [some 0, some 1, none]).leftover
      = [some 1, none] := by
  refine ⟨?_, ?_, ?_⟩ <;> rfl

/-- C2 (amended): a handler exception raised while re-publishing a
dequeued event propagates out of the consumer coroutine: the events
consumed before it are dispatched, the crashing event is recorded, and
every queue item after it is left unconsumed. -/
theorem c2_consumer_crash {E : Type} (raises : E → Bool) (pre : List E)
    (e : E) (post : List (Option E))
    (hpre : ∀ x ∈ pre, raises x = false) (he : raises e = true) :
    awaitQueue raises (pre.map some ++ some e :: post) = ⟨pre, some e, post⟩ := by
  induction pre with
  | nil => simp [awaitQueue, he]
  | cons x t ih =>
      have hx : raises x = false := hpre x (List.mem_cons_self x t)
      have ht : ∀ y ∈ t, raises y = false :=
        fun y hy => hpre y (List.mem_cons_of_mem x hy)
      simp [awaitQueue, hx, ih ht]

/-- C2 witness: concrete run of the amended statement. -/
theorem c2_consumer_crash_witness :
    awaitQueue (fun x => x == 0) ([1].map some ++ some 0 :: [some 2]) =
      ⟨[1], some 0, [some 2]⟩ :=
  c2_consumer_crash (fun x => x == 0) [1] 0 [some 2] (by decide) (by decide)

/-- `List.lookup` through a map that rewrites every value but keeps every
key. -/
theorem lookup_map_values {β γ : Type} (g : List β → List γ)
    (t : List (String × List β)) (k : String) :
    (t.map (fun p => (p.1, g p.2))).lookup k = (t.lookup k).map g := by
  induction t with
  | nil => rfl
  | cons p t ih =>
      by_cases h : k = p.1
      · simp [List.lookup, h]
      · have hb : (k == p.1) = false := by simp [h]
        simp [List.lookup, hb, ih]

/-- C10: `unsubscribe(event_name, handler, senders)` leaves the table
unchanged when `event_name` is not a key; otherwise it removes every
entry equal to `(senders, handler)` from the subscriber lists of all
event names, not only of `event_name`. -/
theorem c10_unsubscribe (t : SubscriberTable) (event_name : String)
    (handler : ℕ) (senders : Option (Finset ℕ)) (k : String) :
    (unsubscribe t event_name handler senders).lookup k =
      (if (t.lookup event_name).isSome then
        (t.lookup k).map
          (List.filter (fun i => decide (i ≠ (senders, handler))))
      else t.lookup k) ∧
    unsubscribe t event_name handler senders =
      (if (t.lookup event_name).isSome then
        unsubscribe t event_name handler senders
      else t) := by
  unfold unsubscribe
  rcases h : t.lookup event_name with _ | subs
  · simp [h]
  · simp only [h, Option.isSome_some, if_true]
    exact ⟨lookup_map_values _ t k, trivial⟩

/-- The delivery loop invokes exactly the handlers whose sender filter
matches, keeping the subscriber list's order. -/
theorem deliverList_eq_filter_map (subs : List Subscriber) (sender : ℕ) :
    deliverList subs sender =
      (subs.filter (fun p => matchesSender p.1 sender)).map Prod.snd := by
  induction subs with
  | nil => rfl
  | cons p rest ih =>
      rcases p with ⟨filt, hd⟩
      by_cases h : matchesSender filt sender
      · simp [deliverList, h, ih, List.filter_cons]
      · simp only [Bool.not_eq_true] at h
        simp [deliverList, h, ih, List.filter_cons]

/-- The delivery loop distributes over list concatenation. -/
theorem deliverList_append (a b : List Subscriber) (sender : ℕ) :
    deliverList (a ++ b) sender = deliverList a sender ++ deliverList b sender := by
  simp [deliverList_eq_filter_map, List.filter_append]

/-- Appending a fresh key at the end of the table makes it visible to
lookup when it was absent before. -/
theorem lookup_append_fresh {β : Type} (t : List (String × β)) (k : String)
    (v : β) (h : t.lookup k = none) : (t ++ [(k, v)]).lookup k = some v := by
  induction t with
  | nil => simp [List.lookup]
  | cons p rest ih =>
      by_cases hk : k = p.1
      · simp [List.lookup, hk] at h
      · have hb : (k == p.1) = false := by simp [hk]
        simp only [List.cons_append, List.lookup, hb] at h ⊢
        exact ih h

/-- Appending an entry to the list stored under `name` is what lookup at
`name` observes after the keyed map of `subscribe`. -/
theorem lookup_map_append_at_key (t : SubscriberTable) (name : String)
    (es : List Subscriber) :
    ((t.map (fun p => if p.1 = name then (p.1, p.2 ++ es) else p)).lookup name)
      = (t.lookup name).map (· ++ es) := by
  induction t with
  | nil => rfl
  | cons p rest ih =>
      rcases p with ⟨k1, v1⟩
      by_cases hk : k1 = name
      · subst hk
        simp [List.lookup_cons, ih]
      · have hb : (name == k1) = false := by simp [Ne.symm hk]
        simp [List.lookup_cons, if_neg hk, hb, ih]

/-- C9: on the main thread, `publish(name, event, sender)` invokes exactly
the handlers subscribed under `name` whose sender filter is `None` or
contains the sender type, in subscription order; a new subscription is
appended at the end of the delivery order, is always delivered to when it
has no sender filter, and only on a filter match otherwise. -/
theorem c9_publish (t : SubscriberTable) (name : String) (sender : ℕ)
    (handler : ℕ) (senders : Option (Finset ℕ)) :
    publish t name sender =
      (((t.lookup name).getD []).filter
        (fun p => matchesSender p.1 sender)).map Prod.snd ∧
    publish (subscribe t name handler senders) name sender =
      publish t name sender ++
        (if matchesSender senders sender then [handler] else []) ∧
    publish (subscribe t name handler none) name sender =
      publish t name sender ++ [handler] := by
  have key : ∀ ss : Option (Finset ℕ),
      publish (subscribe t name handler ss) name sender =
        publish t name sender ++
          (if matchesSender ss sender then [handler] else []) := by
    intro ss
    unfold subscribe
    rcases h : t.lookup name with _ | subs
    · have hl : (t ++ [(name, [(ss, handler)])]).lookup name
          = some [(ss, handler)] := lookup_append_fresh t name _ h
      simp only [publish, hl, h]
      by_cases hm : matchesSender ss sender
      · simp [deliverList, hm]
      · simp only [Bool.not_eq_true] at hm
        simp [deliverList, hm]
    · have hl : ((t.map (fun p =>
          if p.1 = name then (p.1, p.2 ++ [(ss, handler)]) else p)).lookup name)
          = some (subs ++ [(ss, handler)]) := by
        rw [lookup_map_append_at_key t name [(ss, handler)], h]
        rfl
      simp only [publish, hl, h, deliverList_append]
      by_cases hm : matchesSender ss sender
      · simp [deliverList, hm]
      · simp only [Bool.not_eq_true] at hm
        simp [deliverList, hm]
  refine ⟨?_, key senders, ?_⟩
  · unfold publish
    rcases h : t.lookup name with _ | subs
    · rfl
    · simp [deliverList_eq_filter_map]
  · rw [key none]
    rfl

/-- The left scan of `_do_monotonize` never rises above its running
previous value: the previous value followed by the scan is a descending
chain. -/
theorem monotonizeLeftAux_chain (prev : ℚ) (l : List ℚ) :
    List.Chain' (fun a b => b ≤ a) (prev :: monotonizeLeftAux prev l) := by
  induction l generalizing prev with
  | nil => simp [monotonizeLeftAux]
  | cons v t ih =>
      have hh := ih (min prev v)
      exact List.chain'_cons.2 ⟨min_le_left prev v, hh⟩

/-- The right scan of `_do_monotonize` never falls below its running
previous value: the previous value followed by the scan is an ascending
chain. -/
theorem monotonizeRightAux_chain (prev : ℚ) (l : List ℚ) :
    List.Chain' (fun a b => a ≤ b) (prev :: monotonizeRightAux prev l) := by
  induction l generalizing prev with
  | nil => simp [monotonizeRightAux]
  | cons v t ih =>
      have hh := ih (max prev v)
      exact List.chain'_cons.2 ⟨le_max_left prev v, hh⟩

/-- `values_l` of `_do_monotonize` is non-increasing left to right. -/
theorem monotonizeLeft_antitone (values : List ℚ) :
    List.Chain' (fun a b => b ≤ a) (monotonizeLeft values) :=
  (monotonizeLeftAux_chain 1 values).tail

/-- `values_r` of `_do_monotonize` is non-decreasing right to left. -/
theorem monotonizeRight_reverse_monotone (values : List ℚ) :
    List.Chain' (fun a b => a ≤ b) ((monotonizeRight values).reverse) := by
  unfold monotonizeRight
  rw [List.reverse_reverse]
  exact (monotonizeRightAux_chain 0 values.reverse).tail

/-- `values_r` of `_do_monotonize` is also monotone read left to right:
it is non-increasing. -/
theorem monotonizeRight_antitone (values : List ℚ) :
    List.Chain' (fun a b => b ≤ a) (monotonizeRight values) := by
  have hh := monotonizeRight_reverse_monotone values
  rw [List.chain'_reverse] at hh
  exact hh

/-- C3: `_do_monotonize` returns one of the two candidate curves — the
left-to-right non-increasing scan `values_l` or the right-to-left
non-decreasing scan `values_r` — choosing the one with the smaller sum of
squared deviations from the raw curve and `values_l` on ties, and the
returned curve is monotone (non-increasing or non-decreasing). -/
theorem c3_monotonize (values : List ℚ) :
    (do_monotonize values = monotonizeLeft values ∨
     do_monotonize values = monotonizeRight values) ∧
    List.Chain' (fun a b => b ≤ a) (monotonizeLeft values) ∧
    List.Chain' (fun a b => a ≤ b) ((monotonizeRight values).reverse) ∧
    ssd values (do_monotonize values) ≤ ssd values (monotonizeLeft values) ∧
    ssd values (do_monotonize values) ≤ ssd values (monotonizeRight values) ∧
    (do_monotonize values = monotonizeLeft values ∨
      ssd values (monotonizeRight values) < ssd values (monotonizeLeft values)) ∧
    (List.Chain' (fun a b => b ≤ a) (do_monotonize values) ∨
     List.Chain' (fun a b => a ≤ b) (do_monotonize values)) := by
  by_cases hc : ssd values (monotonizeLeft values) ≤
      ssd values (monotonizeRight values)
  · have hif : do_monotonize values = monotonizeLeft values := by
      unfold do_monotonize
      rw [if_pos hc]
    refine ⟨Or.inl hif, monotonizeLeft_antitone values,
      monotonizeRight_reverse_monotone values, by rw [hif], ?_, Or.inl hif,
      Or.inl (by rw [hif]; exact monotonizeLeft_antitone values)⟩
    rw [hif]
    exact hc
  · have hif : do_monotonize values = monotonizeRight values := by
      unfold do_monotonize
      rw [if_neg hc]
    have hlt : ssd values (monotonizeRight values) <
        ssd values (monotonizeLeft values) := lt_of_not_le hc
    refine ⟨Or.inr hif, monotonizeLeft_antitone values,
      monotonizeRight_reverse_monotone values, ?_, by rw [hif], Or.inr hlt,
      Or.inl (by rw [hif]; exact monotonizeRight_antitone values)⟩
    rw [hif]
    exact le_of_lt hlt

/-- Folding `min` over a successor-shifted list shifts the result. -/
theorem foldl_min_succ (l : List ℕ) (a : ℕ) :
    (l.map (· + 1)).foldl min (a + 1) = (l.foldl min a) + 1 := by
  induction l generalizing a with
  | nil => rfl
  | cons x xs ih =>
      simp only [List.map_cons, List.foldl_cons]
      rw [show min (a + 1) (x + 1) = (min a x) + 1 from by omega]
      exact ih (min a x)

/-- `List.min?` commutes with adding one to every entry. -/
theorem min?_map_succ (l : List ℕ) :
    (l.map (· + 1)).min? = l.min?.map (· + 1) := by
  rcases l with _ | ⟨a, t⟩
  · rfl
  · show ((a + 1) :: t.map (· + 1)).min? = _
    rw [show ((a + 1) :: t.map (· + 1)).min?
        = some ((t.map (· + 1)).foldl min (a + 1)) from rfl]
    rw [foldl_min_succ]
    rfl

/-- A list of naturals containing `0` has minimum `0`. -/
theorem min?_zero_mem (l : List ℕ) (h : 0 ∈ l) : l.min? = some 0 := by
  rcases l with _ | ⟨a, t⟩
  · simp at h
  · rw [List.min?_eq_some_iff']
    exact ⟨h, fun b _ => Nat.zero_le b⟩

/-- The zip expansion is as long as the shortest input vector (`0` for no
vectors at all). -/
theorem zipExpand_length {α : Type} (vs0 : List (List α)) :
    (zipExpand vs0).length = ((vs0.map List.length).min?).getD 0 := by
  suffices hh : ∀ (n : ℕ) (vs : List (List α)), (vs.map List.length).sum = n →
      (zipExpand vs).length = ((vs.map List.length).min?).getD 0 by
    exact hh _ vs0 rfl
  intro n
  induction n using Nat.strong_induction_on with
  | _ n ih =>
  intro vs hn
  by_cases h : vs.isEmpty = false ∧ vs.all (fun v => !v.isEmpty) = true
  · rw [zipExpand, dif_pos h]
    rcases h with ⟨hne, hall⟩
    have hlt : ((vs.map List.tail).map List.length).sum
        < (vs.map List.length).sum := by
      rcases vs with _ | ⟨v, rest⟩
      · exact absurd hne (by simp)
      · have hv : v.isEmpty = false := by
          simp only [List.all_cons, Bool.and_eq_true, Bool.not_eq_true'] at hall
          exact hall.1
        have h1 : (List.tail v).length < v.length := by
          rcases v with _ | ⟨a, t⟩
          · exact absurd hv (by simp)
          · simp [List.tail]
        have h2 : ((rest.map List.tail).map List.length).sum ≤
            (rest.map List.length).sum := by
          rw [List.map_map]
          apply List.sum_le_sum
          intro i _
          simp only [Function.comp_apply, List.length_tail]
          omega
        simp only [List.map_cons, List.sum_cons]
        omega
    have hrec := ih _ (hn ▸ hlt) (vs.map List.tail) rfl
    simp only [List.length_cons, hrec]
    have hmap : vs.map List.length
        = ((vs.map List.tail).map List.length).map (· + 1) := by
      rw [List.map_map, List.map_map]
      apply List.map_congr_left
      intro v hv
      have hvne : v.isEmpty = false := by
        have := (List.all_eq_true.mp hall) v hv
        simpa using this
      rcases v with _ | ⟨a, t⟩
      · exact absurd hvne (by simp)
      · simp
    rw [hmap, min?_map_succ]
    rcases hvs : vs with _ | ⟨v, rest⟩
    · exact absurd hne (by simp [hvs])
    · rcases hmq : ((vs.map List.tail).map List.length).min? with _ | m
      · rw [List.min?_eq_none_iff] at hmq
        exact absurd hmq (by simp [hvs])
      · simp [hvs] at hmq ⊢
  · rw [zipExpand, dif_neg h]
    simp only [List.length_nil]
    rcases vs with _ | ⟨v, rest⟩
    · rfl
    · have hnall : ¬ ((v :: rest).all (fun v => !v.isEmpty) = true) := by
        intro hx
        exact h ⟨by simp, hx⟩
      rw [List.all_eq_true] at hnall
      push_neg at hnall
      rcases hnall with ⟨w, hw, hwe⟩
      have hw0 : (0 : ℕ) ∈ (v :: rest).map List.length := by
        rw [List.mem_map]
        refine ⟨w, hw, ?_⟩
        rcases w with _ | ⟨a, t⟩
        · rfl
        · simp at hwe
      rw [min?_zero_mem _ hw0]
      rfl

/-- The product expansion has as many configurations as the product of
the input vector lengths (the empty product being `1`). -/
theorem productExpand_length {α : Type} (vs : List (List α)) :
    (productExpand vs).length = (vs.map List.length).prod := by
  induction vs with
  | nil => rfl
  | cons v rest ih =>
      simp only [productExpand, List.length_flatMap, List.map_map]
      have hconst : (v.map (List.length ∘ fun x => (productExpand rest).map (x :: ·)))
          = v.map (fun _ => (productExpand rest).length) := by
        apply List.map_congr_left
        intro x _
        simp
      rw [hconst, List.map_const']
      simp [List.sum_replicate, ih, Nat.smul_one_eq_cast]

/-- C4 counterexample: for the empty input (no configuration vectors at
all) the product expander does not yield an empty output — like Python's
`itertools.product()`, it yields exactly one empty configuration. -/
theorem c4_product_empty_counterexample :
    productExpand ([] : List (List ℕ)) = [[]] ∧
    ¬ productExpand ([] : List (List ℕ)) = [] := by
  constructor
  · rfl
  · decide

/-- C4 (amended): the zip expansion length is the minimum input vector
length, with empty output for the empty input; the product expansion
length is the product of the vector lengths, so the empty input yields
exactly one (empty) configuration rather than an empty output. -/
theorem c4_expander_lengths {α : Type} (vs : List (List α)) :
    (zipExpand vs).length = ((vs.map List.length).min?).getD 0 ∧
    (productExpand vs).length = (vs.map List.length).prod ∧
    zipExpand ([] : List (List α)) = [] ∧
    productExpand ([] : List (List α)) = [[]] := by
  refine ⟨zipExpand_length vs, productExpand_length vs, ?_, rfl⟩
  rw [zipExpand]
  simp

/-- First-match lookup success exhibits a table entry. -/
theorem lookup_mem {β : Type} (t : List (String × β)) (k : String) (v : β)
    (h : t.lookup k = some v) : (k, v) ∈ t := by
  induction t with
  | nil => simp [List.lookup] at h
  | cons p rest ih =>
      rw [List.lookup_cons] at h
      by_cases hk : (k == p.1) = true
      · rw [hk] at h
        have hkk : k = p.1 := by simpa using hk
        cases h
        have hp : (k, p.2) = p := by
          rw [hkk]
        rw [hp]
        exact List.mem_cons_self p rest
      · have hk2 : (k == p.1) = false := by
          simpa using hk
        rw [hk2] at h
        exact List.mem_cons_of_mem p (ih h)

/-- `List.lookup` after `updateKey` at the updated key. -/
theorem lookup_updateKey {β : Type} (t : List (String × β)) (k : String)
    (v : β) :
    (updateKey t k v).lookup k = (t.lookup k).map (fun _ => v) := by
  induction t with
  | nil => rfl
  | cons p rest ih =>
      rcases p with ⟨k1, v1⟩
      by_cases hk : k1 = k
      · subst hk
        simp [updateKey, List.lookup_cons]
      · have hb : (k == k1) = false := by simp [Ne.symm hk]
        simp [updateKey, List.lookup_cons, if_neg hk, hb] at ih ⊢
        exact ih

/-- Appending a matching-class entry keeps a bucket class-uniform. -/
theorem bucketUniform_append (first : CurveEntry) (rest : List CurveEntry)
    (e : CurveEntry) (hu : bucketUniform (first :: rest) = true)
    (he : e.2.1 = first.2.1) :
    bucketUniform ((first :: rest) ++ [e]) = true := by
  simp only [bucketUniform, List.head?_cons, List.cons_append] at hu ⊢
  rw [List.all_eq_true] at hu ⊢
  intro x hx
  simp only [List.mem_cons, List.mem_append, List.not_mem_nil, or_false] at hx
  rcases hx with h1 | h2 | h3
  · subst h1
    simp
  · exact hu x (List.mem_cons_of_mem first h2)
  · subst h3
    simp [he]

/-- C7: `add_curve(identifier, cls, values)` fails (raises) exactly when
the selected bucket — keyed by class in by-class mode, else by identifier
— already holds entries whose stored first class differs from `cls`;
otherwise it appends `(identifier, cls, values)` to that bucket.  The
class-uniformity and nonemptiness of all buckets are preserved, so all
entries of one bucket always share the same class. -/
theorem c7_add_curve (a : CurveAgg) (identifier cls : String)
    (values : List ℚ) (huni : uniformOK a = true)
    (hne : bucketsNonempty a = true) :
    (addCurve a identifier cls values).isNone
      = specAddCurveRejects a identifier cls ∧
    ((addCurve a identifier cls values).map uniformOK).getD true = true ∧
    ((addCurve a identifier cls values).map bucketsNonempty).getD true = true ∧
    (addCurve a identifier cls values).map
        (fun b => b.curves.lookup (if a.aggregateByClass then cls else identifier))
      = (if specAddCurveRejects a identifier cls then none
         else some (some
          (((a.curves.lookup (if a.aggregateByClass then cls else identifier)).getD [])
            ++ [(identifier, cls, values)]))) := by
  rcases hb : a.curves.lookup (if a.aggregateByClass then cls else identifier)
      with _ | bucket
  · have he : addCurve a identifier cls values = some { a with
        curves := a.curves ++
          [((if a.aggregateByClass then cls else identifier),
            [(identifier, cls, values)])] } := by
      unfold addCurve
      rw [hb]
    have hs : specAddCurveRejects a identifier cls = false := by
      unfold specAddCurveRejects
      rw [hb]
    rw [he, hs]
    refine ⟨rfl, ?_, ?_, ?_⟩
    · simp only [Option.map_some', Option.getD_some]
      rw [uniformOK] at huni ⊢
      simp only [List.all_append, huni, Bool.true_and, List.all_cons,
        List.all_nil, Bool.and_true]
      simp [bucketUniform]
    · simp only [Option.map_some', Option.getD_some]
      rw [bucketsNonempty] at hne ⊢
      simp only [List.all_append, hne, Bool.true_and, List.all_cons,
        List.all_nil, Bool.and_true]
      simp
    · simp only [Option.map_some', if_neg (by simp : ¬ false = true)]
      rw [lookup_append_fresh _ _ _ hb]
      simp
  · have hmem := lookup_mem _ _ _ hb
    have hbne : bucket.isEmpty = false := by
      rw [bucketsNonempty, List.all_eq_true] at hne
      have := hne _ hmem
      simpa using this
    have hbuni : bucketUniform bucket = true := by
      rw [uniformOK, List.all_eq_true] at huni
      exact huni _ hmem
    rcases hbk : bucket with _ | ⟨first, rest⟩
    · rw [hbk] at hbne
      simp at hbne
    · subst hbk
      by_cases hcls : cls = first.2.1
      · have he : addCurve a identifier cls values = some { a with
            curves := updateKey a.curves
              (if a.aggregateByClass then cls else identifier)
              ((first :: rest) ++ [(identifier, cls, values)]) } := by
          unfold addCurve
          rw [hb]
          simp [hcls]
        have hs : specAddCurveRejects a identifier cls = false := by
          unfold specAddCurveRejects
          rw [hb]
          simp [hcls]
        rw [he, hs]
        refine ⟨rfl, ?_, ?_, ?_⟩
        · simp only [Option.map_some', Option.getD_some]
          rw [uniformOK, List.all_eq_true]
          intro p hp
          rw [uniformOK, List.all_eq_true] at huni
          simp only [updateKey, List.mem_map] at hp
          rcases hp with ⟨q, hq, hqe⟩
          by_cases hqk : q.1 = (if a.aggregateByClass then cls else identifier)
          · rw [if_pos hqk] at hqe
            subst hqe
            exact bucketUniform_append first rest _ hbuni hcls
          · rw [if_neg hqk] at hqe
            subst hqe
            exact huni q hq
        · simp only [Option.map_some', Option.getD_some]
          rw [bucketsNonempty, List.all_eq_true]
          intro p hp
          rw [bucketsNonempty, List.all_eq_true] at hne
          simp only [updateKey, List.mem_map] at hp
          rcases hp with ⟨q, hq, hqe⟩
          by_cases hqk : q.1 = (if a.aggregateByClass then cls else identifier)
          · rw [if_pos hqk] at hqe
            subst hqe
            simp
          · rw [if_neg hqk] at hqe
            subst hqe
            exact hne q hq
        · simp only [Option.map_some']
          rw [lookup_updateKey, hb]
          simp
      · have he : addCurve a identifier cls values = none := by
          unfold addCurve
          rw [hb]
          simp [hcls]
        have hs : specAddCurveRejects a identifier cls = true := by
          unfold specAddCurveRejects
          rw [hb]
          simp [hcls]
        rw [he, hs]
        exact ⟨rfl, rfl, rfl, by simp⟩

/-- C7 witness: adding a mismatching-class entry to an existing bucket is
rejected, on a concrete aggregator state. -/
theorem c7_add_curve_witness :
    (addCurve ⟨[("id1", [("id1", "same", [1])])], [], [], [], [], false⟩
        "id1" "diff" [2]).isNone
      = specAddCurveRejects
          ⟨[("id1", [("id1", "same", [1])])], [], [], [], [], false⟩ "id1" "diff" ∧
    ((addCurve ⟨[("id1", [("id1", "same", [1])])], [], [], [], [], false⟩
        "id1" "diff" [2]).map uniformOK).getD true = true ∧
    ((addCurve ⟨[("id1", [("id1", "same", [1])])], [], [], [], [], false⟩
        "id1" "diff" [2]).map bucketsNonempty).getD true = true ∧
    (addCurve ⟨[("id1", [("id1", "same", [1])])], [], [], [], [], false⟩
        "id1" "diff" [2]).map
        (fun b => b.curves.lookup
          (if (⟨[("id1", [("id1", "same", [1])])], [], [], [], [], false⟩ : CurveAgg).aggregateByClass
           then "diff" else "id1"))
      = (if specAddCurveRejects
            ⟨[("id1", [("id1", "same", [1])])], [], [], [], [], false⟩ "id1" "diff"
         then none
         else some (some
          ((((⟨[("id1", [("id1", "same", [1])])], [], [], [], [], false⟩ : CurveAgg).curves.lookup
              (if (⟨[("id1", [("id1", "same", [1])])], [], [], [], [], false⟩ : CurveAgg).aggregateByClass
               then "diff" else "id1")).getD [])
            ++ [("id1", "diff", [2])]))) :=
  c7_add_curve ⟨[("id1", [("id1", "same", [1])])], [], [], [], [], false⟩
    "id1" "diff" [2] (by decide) (by decide)

/-- The curve held by a loop state of `UnmaskingStrategy.run`. -/
def runStateValues : RunState → List ℚ
  | .going vs => vs
  | .ended vs => vs

/-- Fold accuracies in `[0, 1]` give a round score in `[0, 1]`. -/
theorem roundScore_bounds (fs : List ℚ) (hne : fs ≠ [])
    (hb : ∀ x ∈ fs, 0 ≤ x ∧ x ≤ 1) :
    0 ≤ roundScore fs ∧ roundScore fs ≤ 1 := by
  have hlen : (0:ℚ) < fs.length := by
    have hl0 : fs.length ≠ 0 := fun hc => hne (List.length_eq_zero.mp hc)
    positivity
  have hsum_ub : fs.sum ≤ fs.length := by
    calc fs.sum ≤ fs.length • (1:ℚ) :=
          List.sum_le_card_nsmul fs 1 (fun x hx => (hb x hx).2)
    _ = fs.length := by simp
  have hmean_ub : listMean fs ≤ 1 := by
    rw [listMean, div_le_one hlen]
    exact hsum_ub
  constructor
  · exact le_max_left 0 _
  · apply max_le
    · norm_num
    · nlinarith [hmean_ub]

/-- Each loop iteration of `UnmaskingStrategy.run` keeps every held score
inside `[0, 1]` when the oracle only returns nonempty fold-accuracy lists
with entries in `[0, 1]`. -/
theorem runFold_bounds (oracle : ℕ → RoundResult) (terminate : ℕ → Bool)
    (iterations : ℕ)
    (hora : ∀ i fs b, oracle i = RoundResult.ok fs b →
      fs ≠ [] ∧ ∀ x ∈ fs, 0 ≤ x ∧ x ≤ 1)
    (is : List ℕ) (st : RunState)
    (hst : ∀ x ∈ runStateValues st, 0 ≤ x ∧ x ≤ 1) :
    ∀ x ∈ runStateValues
        ((is.foldl (runRound oracle terminate iterations) st)),
      0 ≤ x ∧ x ≤ 1 := by
  induction is generalizing st with
  | nil => exact hst
  | cons i is ih =>
      rw [List.foldl_cons]
      apply ih
      rcases st with vs | vs
      · by_cases ht : terminate i = true
        · simpa [runRound, ht] using hst
        · rw [Bool.not_eq_true] at ht
          rcases ho : oracle i with _ | ⟨fs, b⟩
          · simpa [runRound, ht, ho] using hst
          · have hfs := hora i fs b ho
            have hsc := roundScore_bounds fs hfs.1 hfs.2
            have hv : runStateValues
                (runRound oracle terminate iterations (.going vs) i)
                = vs ++ [roundScore fs] := by
              by_cases hcut : (decide (i < iterations - 1) && b) = true
              · simp [runRound, ht, ho, hcut, runStateValues]
              · simp only [Bool.not_eq_true] at hcut
                simp [runRound, ht, ho, hcut, runStateValues]
            rw [hv]
            intro x hx
            rcases List.mem_append.1 hx with h1 | h2
            · exact hst x h1
            · simp only [List.mem_cons, List.not_mem_nil, or_false] at h2
              subst h2
              exact hsc
      · simpa [runRound] using hst

/-- Each loop iteration of `UnmaskingStrategy.run` grows the curve by at
most one score. -/
theorem runFold_length (oracle : ℕ → RoundResult) (terminate : ℕ → Bool)
    (iterations : ℕ) (is : List ℕ) (st : RunState) :
    (runStateValues ((is.foldl (runRound oracle terminate iterations) st))).length
      ≤ (runStateValues st).length + is.length := by
  induction is generalizing st with
  | nil => simp
  | cons i is ih =>
      rw [List.foldl_cons]
      refine le_trans (ih _) ?_
      have hstep : (runStateValues (runRound oracle terminate iterations st i)).length
          ≤ (runStateValues st).length + 1 := by
        rcases st with vs | vs
        · by_cases ht : terminate i = true
          · simp [runRound, ht, runStateValues]
          · rw [Bool.not_eq_true] at ht
            rcases ho : oracle i with _ | ⟨fs, b⟩
            · simp [runRound, ht, ho, runStateValues]
            · by_cases hcut : (decide (i < iterations - 1) && b) = true
              · simp [runRound, ht, ho, hcut, runStateValues]
              · simp [runRound, ht, ho, hcut, runStateValues]
        · simp [runRound, runStateValues]
      simp only [List.length_cons]
      omega

/-- The left scan of `_do_monotonize` keeps the curve length. -/
theorem monotonizeLeftAux_length (prev : ℚ) (l : List ℚ) :
    (monotonizeLeftAux prev l).length = l.length := by
  induction l generalizing prev with
  | nil => rfl
  | cons v t ih => simp [monotonizeLeftAux, ih]

/-- The right scan of `_do_monotonize` keeps the curve length. -/
theorem monotonizeRightAux_length (prev : ℚ) (l : List ℚ) :
    (monotonizeRightAux prev l).length = l.length := by
  induction l generalizing prev with
  | nil => rfl
  | cons v t ih => simp [monotonizeRightAux, ih]

/-- `_do_monotonize` keeps the curve length. -/
theorem do_monotonize_length (values : List ℚ) :
    (do_monotonize values).length = values.length := by
  unfold do_monotonize
  by_cases hc : ssd values (monotonizeLeft values) ≤
      ssd values (monotonizeRight values)
  · rw [if_pos hc]
    exact monotonizeLeftAux_length 1 values
  · rw [if_neg hc]
    unfold monotonizeRight
    rw [List.length_reverse, monotonizeRightAux_length, List.length_reverse]

/-- C5: assuming every cross-validation fold accuracy returned by the
oracle lies in `[0, 1]` (and each fold list is nonempty so its mean is
defined), every score `max(0, (mean - 0.5) * 2)` appended to the curve by
`UnmaskingStrategy.run` lies in `[0, 1]`, and the finished curve — also
after optional monotonization — has length at most `iterations`. -/
theorem c5_run_invariants (oracle : ℕ → RoundResult) (terminate : ℕ → Bool)
    (iterations : ℕ)
    (hora : ∀ i fs b, oracle i = RoundResult.ok fs b →
      fs ≠ [] ∧ ∀ x ∈ fs, 0 ≤ x ∧ x ≤ 1) :
    (runValues oracle terminate iterations).length ≤ iterations ∧
    (runValues oracle terminate iterations).all
      (fun x => decide (0 ≤ x) && decide (x ≤ 1)) = true ∧
    (do_monotonize (runValues oracle terminate iterations)).length
      ≤ iterations := by
  have hrv : runValues oracle terminate iterations
      = runStateValues ((List.range iterations).foldl
          (runRound oracle terminate iterations) (.going [])) := by
    unfold runValues
    rcases (List.range iterations).foldl
        (runRound oracle terminate iterations) (.going []) with vs | vs
    · rfl
    · rfl
  have hlen : (runValues oracle terminate iterations).length ≤ iterations := by
    rw [hrv]
    have := runFold_length oracle terminate iterations
      (List.range iterations) (.going [])
    simpa [runStateValues] using this
  refine ⟨hlen, ?_, ?_⟩
  · rw [List.all_eq_true]
    intro x hx
    have hb := runFold_bounds oracle terminate iterations hora
      (List.range iterations) (.going []) (by simp [runStateValues])
    have := hb x (by rw [hrv] at hx; exact hx)
    simp only [Bool.and_eq_true, decide_eq_true_eq]
    exact this
  · rw [do_monotonize_length]
    exact hlen

/-- C5 witness: a concrete two-round run with fold accuracies `1` and
`3/4`. -/
theorem c5_run_invariants_witness :
    (runValues (fun _ => RoundResult.ok [1, 3/4] false) (fun _ => false) 2).length ≤ 2 ∧
    (runValues (fun _ => RoundResult.ok [1, 3/4] false) (fun _ => false) 2).all
      (fun x => decide (0 ≤ x) && decide (x ≤ 1)) = true ∧
    (do_monotonize (runValues (fun _ => RoundResult.ok [1, 3/4] false)
        (fun _ => false) 2)).length ≤ 2 :=
  c5_run_invariants (fun _ => RoundResult.ok [1, 3/4] false) (fun _ => false) 2
    (by
      intro i fs b h
      simp only [RoundResult.ok.injEq] at h
      constructor
      · rw [← h.1]
        simp
      · intro x hx
        rw [← h.1] at hx
        simp only [List.mem_cons, List.not_mem_nil, or_false] at hx
        rcases hx with h1 | h2
        · subst h1
          norm_num
        · subst h2
          norm_num)

/-- A two-round scenario: round `0` raises `ValueError` during fitting,
every later round fits successfully (fold accuracies all `1`, transform
never empties the matrix). -/
def demoOracle : ℕ → RoundResult :=
  fun i => if i = 0 then RoundResult.err else RoundResult.ok [1] false

/-- C1 counterexample: with `iterations = 2`, one skipped round and a
successful round available at every later index, the run appends only one
score, not two — the skipped round did consume one iteration of the
budget, so the curve cannot reach the full `iterations` length. -/
theorem c1_skip_budget_counterexample :
    runValues demoOracle (fun _ => false) 2 = [1] ∧
    ¬ (runValues demoOracle (fun _ => false) 2).length = 2 := by
  have hv : runValues demoOracle (fun _ => false) 2 = [1] := by
    simp [runValues, List.range_succ, runRound, demoOracle, roundScore,
      listMean]
    norm_num
  exact ⟨hv, by rw [hv]; simp⟩

/-- The loop of `UnmaskingStrategy.run` with no cancellation and no
early exit stays in the running state and appends one score per
non-raising round index. -/
theorem runFold_going (oracle : ℕ → RoundResult) (terminate : ℕ → Bool)
    (iterations : ℕ)
    (hterm : ∀ i, terminate i = false)
    (hnb : ∀ i fs b, oracle i = RoundResult.ok fs b → b = false) :
    ∀ (is : List ℕ) (values : List ℚ),
      (runStateValues
          (is.foldl (runRound oracle terminate iterations) (.going values))).length
        = values.length
          + (is.filter (fun i => decide (oracle i ≠ RoundResult.err))).length := by
  intro is
  induction is with
  | nil =>
      intro values
      simp [runStateValues]
  | cons i is ih =>
      intro values
      rw [List.foldl_cons]
      rcases ho : oracle i with _ | ⟨fs, b⟩
      · have hstep : runRound oracle terminate iterations (.going values) i
            = .going values := by
          simp [runRound, hterm i, ho]
        rw [hstep, ih values, List.filter_cons]
        simp [ho]
      · have hb : b = false := hnb i fs b ho
        subst hb
        have hstep : runRound oracle terminate iterations (.going values) i
            = .going (values ++ [roundScore fs]) := by
          simp [runRound, hterm i, ho]
        rw [hstep, ih (values ++ [roundScore fs]), List.filter_cons]
        simp [ho]
        omega

/-- C1 (amended): a round whose fit raises `ValueError` is skipped
without being fatal and without appending a score, but `continue` does
consume one iteration of the `for i in range(iterations)` budget: with no
cancellation and no early exit, the curve length equals the number of
non-raising rounds among the `iterations` loop indices, so each skipped
round reduces the reachable curve length by one. -/
theorem c1_skipped_round_budget (oracle : ℕ → RoundResult)
    (terminate : ℕ → Bool) (iterations : ℕ)
    (hterm : ∀ i, terminate i = false)
    (hnb : ∀ i fs b, oracle i = RoundResult.ok fs b → b = false) :
    (runValues oracle terminate iterations).length
      = ((List.range iterations).filter
          (fun i => decide (oracle i ≠ RoundResult.err))).length := by
  have hrv : runValues oracle terminate iterations
      = runStateValues ((List.range iterations).foldl
          (runRound oracle terminate iterations) (.going [])) := by
    unfold runValues
    rcases (List.range iterations).foldl
        (runRound oracle terminate iterations) (.going []) with vs | vs
    · rfl
    · rfl
  rw [hrv, runFold_going oracle terminate iterations hterm hnb
    (List.range iterations) []]
  simp

/-- C1 witness: the amended statement at the concrete two-round scenario
with one skipped round. -/
theorem c1_skipped_round_budget_witness :
    (runValues demoOracle (fun _ => false) 2).length
      = ((List.range 2).filter
          (fun i => decide (demoOracle i ≠ RoundResult.err))).length :=
  c1_skipped_round_budget demoOracle (fun _ => false) 2 (fun _ => rfl)
    (by
      intro i fs b h
      unfold demoOracle at h
      by_cases hi : i = 0
      · rw [if_pos hi] at h
        exact absurd h (by simp)
      · rw [if_neg hi] at h
        simp only [RoundResult.ok.injEq] at h
        exact h.2.symm)

/-- Matrix rows held by a transform loop state. -/
def frStateData : FRState → List (List ℚ)
  | .going d _ => d
  | .ended d => d

/-- `numpy.argmax` of a nonempty vector is a valid index. -/
theorem argmax_lt_length (l : List ℚ) (h : l ≠ []) : argmax l < l.length := by
  rcases hm : l.max? with _ | m
  · rw [List.max?_eq_none_iff] at hm
    exact absurd hm h
  · have hmem : m ∈ l := List.max?_mem (by intro a b; exact max_choice a b) hm
    unfold argmax
    rw [hm]
    simpa using List.indexOf_lt_length.2 hmem

/-- `numpy.argmin` of a nonempty vector is a valid index. -/
theorem argmin_lt_length (l : List ℚ) (h : l ≠ []) : argmin l < l.length := by
  rcases hm : l.min? with _ | m
  · rw [List.min?_eq_none_iff] at hm
    exact absurd hm h
  · have hmem : m ∈ l := List.min?_mem (by intro a b; exact min_choice a b) hm
    unfold argmin
    rw [hm]
    simpa using List.indexOf_lt_length.2 hmem

/-- Once the transform loop has ended (`return` or `break`), later
iterations change nothing. -/
theorem frFold_ended (k : ℕ) (is : List ℕ) (d : List (List ℚ)) :
    is.foldl (frStep k) (.ended d) = .ended d := by
  induction is with
  | nil => rfl
  | cons i is ih =>
      rw [List.foldl_cons]
      exact ih

/-- The specification's elimination fold does nothing once no column is
left. -/
theorem specFold_stuck (k : ℕ) (is : List ℕ) (dc : List (List ℚ) × List ℚ)
    (h : numCols dc.1 = 0) : is.foldl (specFRStep k) dc = dc := by
  induction is with
  | nil => rfl
  | cons i is ih =>
      rw [List.foldl_cons]
      rw [show specFRStep k dc i = dc from by simp [specFRStep, h]]
      exact ih

/-- Invariant of the elimination loop of `FeatureRemoval.transform` over
any window of loop indices: on a nonempty rectangular matrix with one
coefficient per column, `m` loop iterations leave the row count unchanged,
leave `max (c - m) 0` columns, and agree with the specification's
elimination fold. -/
theorem frFold_invariant (k : ℕ) :
    ∀ (m i : ℕ) (data : List (List ℚ)) (coef : List ℚ) (c : ℕ),
      data ≠ [] → (∀ r ∈ data, r.length = c) → coef.length = c →
      (frStateData ((List.range' i m).foldl (frStep k) (.going data coef))).length
          = data.length ∧
      numCols (frStateData ((List.range' i m).foldl (frStep k) (.going data coef)))
          = c - m ∧
      frStateData ((List.range' i m).foldl (frStep k) (.going data coef))
          = ((List.range' i m).foldl (specFRStep k) (data, coef)).1 := by
  intro m
  induction m with
  | zero =>
      intro i data coef c hne hrect hcoef
      refine ⟨rfl, ?_, rfl⟩
      rcases data with _ | ⟨r, rest⟩
      · exact absurd rfl hne
      · simpa [numCols, frStateData] using hrect r (by simp)
  | succ m ih =>
      intro i data coef c hne hrect hcoef
      have hnum : numCols data = c := by
        rcases data with _ | ⟨r, rest⟩
        · exact absurd rfl hne
        · simpa [numCols] using hrect r (by simp)
      rw [show List.range' i (m + 1) = i :: List.range' (i + 1) m from rfl,
        List.foldl_cons, List.foldl_cons]
      by_cases hc0 : c = 0
      · subst hc0
        have hstep : frStep k (.going data coef) i = .ended data := by
          simp [frStep, hnum]
        have hspec : specFRStep k (data, coef) i = (data, coef) := by
          simp [specFRStep, hnum]
        rw [hstep, hspec, frFold_ended, specFold_stuck k _ _ (by simpa using hnum)]
        exact ⟨rfl, by simpa [frStateData] using hnum, rfl⟩
      · have hcoefne : coef ≠ [] := by
          intro hc
          rw [hc] at hcoef
          exact hc0 (by simpa using hcoef.symm)
        have hidx : (if 2 * i < k then argmax coef else argmin coef) < c := by
          by_cases h2 : 2 * i < k
          · rw [if_pos h2, ← hcoef]
            exact argmax_lt_length coef hcoefne
          · rw [if_neg h2, ← hcoef]
            exact argmin_lt_length coef hcoefne
        have hrect2 : ∀ r ∈ data.map
            (fun r => r.eraseIdx (if 2 * i < k then argmax coef else argmin coef)),
            r.length = c - 1 := by
          intro r hr
          rcases List.mem_map.1 hr with ⟨r0, hr0, he⟩
          subst he
          rw [List.length_eraseIdx_of_lt (by rw [hrect r0 hr0]; exact hidx),
            hrect r0 hr0]
        have hne2 : data.map
            (fun r => r.eraseIdx (if 2 * i < k then argmax coef else argmin coef))
            ≠ [] := by
          simpa using hne
        have hcoef2 : (coef.eraseIdx
            (if 2 * i < k then argmax coef else argmin coef)).length = c - 1 := by
          rw [List.length_eraseIdx_of_lt (by rw [hcoef]; exact hidx), hcoef]
        have hsum : ((data.map
            (fun r => r.eraseIdx (if 2 * i < k then argmax coef else argmin coef))).map
              List.length).sum = data.length * (c - 1) := by
          have hrep : (data.map
              (fun r => r.eraseIdx (if 2 * i < k then argmax coef else argmin coef))).map
                List.length = List.replicate data.length (c - 1) := by
            rw [List.eq_replicate_iff]
            constructor
            · simp
            · intro x hx
              rcases List.mem_map.1 hx with ⟨r, hr, he⟩
              subst he
              exact hrect2 r hr
          rw [hrep, List.sum_replicate, smul_eq_mul]
        have hspec : specFRStep k (data, coef) i =
            (data.map
              (fun r => r.eraseIdx (if 2 * i < k then argmax coef else argmin coef)),
             coef.eraseIdx (if 2 * i < k then argmax coef else argmin coef)) := by
          rw [specFRStep, if_neg (by rw [hnum]; exact hc0)]
          unfold elimOnce
          by_cases h2 : 2 * i < k
          · simp [h2]
          · simp [h2]
        by_cases hc1 : c = 1
        · have hsum0 : ((data.map
              (fun r => r.eraseIdx (if 2 * i < k then argmax coef else argmin coef))).map
                List.length).sum = 0 := by
            rw [hsum, hc1]
            simp
          have hnc : ¬ numCols data = 0 := by
            rw [hnum]
            exact hc0
          have hstep : frStep k (.going data coef) i = .ended (data.map
              (fun r => r.eraseIdx (if 2 * i < k then argmax coef else argmin coef))) := by
            simp only [frStep, if_neg hnc]
            rw [if_pos hsum0]
          have hnum2 : numCols (data.map
              (fun r => r.eraseIdx (if 2 * i < k then argmax coef else argmin coef))) = 0 := by
            rcases hd : data with _ | ⟨r, rest⟩
            · exact absurd hd hne
            · have := hrect2 (r.eraseIdx (if 2 * i < k then argmax coef else argmin coef))
                (by rw [hd]; simp)
              simpa [numCols, hd, hc1] using this
          rw [hstep, hspec, frFold_ended, specFold_stuck k _ _ hnum2]
          refine ⟨by simp [frStateData], ?_, rfl⟩
          rw [show frStateData (FRState.ended (data.map
              (fun r => r.eraseIdx (if 2 * i < k then argmax coef else argmin coef))))
            = data.map (fun r => r.eraseIdx (if 2 * i < k then argmax coef else argmin coef))
            from rfl]
          rw [hnum2, hc1]
          omega
        · have hsumne : ¬ ((data.map
              (fun r => r.eraseIdx (if 2 * i < k then argmax coef else argmin coef))).map
                List.length).sum = 0 := by
            rw [hsum]
            have hd : data.length ≠ 0 := by
              simpa [List.length_eq_zero] using hne
            have hcm : c - 1 ≠ 0 := by omega
            positivity
          have hnc : ¬ numCols data = 0 := by
            rw [hnum]
            exact hc0
          have hstep : frStep k (.going data coef) i = .going
              (data.map
                (fun r => r.eraseIdx (if 2 * i < k then argmax coef else argmin coef)))
              (coef.eraseIdx (if 2 * i < k then argmax coef else argmin coef)) := by
            simp only [frStep, if_neg hnc]
            rw [if_neg hsumne]
          rw [hstep, hspec]
          have hrec := ih (i + 1)
            (data.map
              (fun r => r.eraseIdx (if 2 * i < k then argmax coef else argmin coef)))
            (coef.eraseIdx (if 2 * i < k then argmax coef else argmin coef))
            (c - 1) hne2 hrect2 hcoef2
          refine ⟨?_, ?_, hrec.2.2⟩
          · rw [hrec.1]
            simp
          · rw [hrec.2.1]
            omega

/-- C6: on a nonempty rectangular feature matrix with `n` columns and a
coefficient vector of length `n`, `FeatureRemoval.transform` with
`num_eliminate = k` keeps the row count, returns exactly `max 0 (n - k)`
columns, and equals the specification's elimination procedure: the first
`k - k/2` removed columns are chosen by first-occurrence argmax of the
remaining coefficients and the rest by first-occurrence argmin. -/
theorem c6_feature_removal (k n : ℕ) (data : List (List ℚ)) (coef : List ℚ)
    (hne : data ≠ []) (hrect : ∀ r ∈ data, r.length = n)
    (hcoef : coef.length = n) :
    (frTransform k data coef).length = data.length ∧
    numCols (frTransform k data coef) = n - k ∧
    frTransform k data coef = specFeatureRemoval k data coef := by
  have hrange : List.range k = List.range' 0 k := List.range_eq_range' k
  have hinv := frFold_invariant k k 0 data coef n hne hrect hcoef
  have hft : frTransform k data coef
      = frStateData ((List.range k).foldl (frStep k) (.going data coef)) := by
    unfold frTransform
    rcases (List.range k).foldl (frStep k) (.going data coef) with d | d
    · rfl
    · rfl
  rw [hft, specFeatureRemoval, hrange]
  exact hinv

/-- C6 witness: eliminating two of three features from a two-row matrix
removes first the argmax column, then the argmin column. -/
theorem c6_feature_removal_witness :
    (frTransform 2 [[1, 2, 3], [4, 5, 6]] [2, 0, 1]).length
      = ([[1, 2, 3], [4, 5, 6]] : List (List ℚ)).length ∧
    numCols (frTransform 2 [[1, 2, 3], [4, 5, 6]] [2, 0, 1]) = 3 - 2 ∧
    frTransform 2 [[1, 2, 3], [4, 5, 6]] [2, 0, 1]
      = specFeatureRemoval 2 [[1, 2, 3], [4, 5, 6]] [2, 0, 1] :=
  c6_feature_removal 2 3 [[1, 2, 3], [4, 5, 6]] [2, 0, 1] (by simp)
    (by
      intro r hr
      simp only [List.mem_cons, List.not_mem_nil, or_false] at hr
      rcases hr with h1 | h2
      · rw [h1]
        rfl
      · rw [h2]
        rfl)
    (by rfl)

end Unmasking
